import Mathlib

/-!
Shallow embedding of the TOONc parser (toonc.c) in Lean 4.

The C code parses a line-oriented, indentation-structured notation into a
tree of `toonObject` nodes.  We embed the byte buffer as `List Char` (the C
string up to its NUL terminator), pointer advancement as returning the
remaining suffix, and the mutating tree construction as a functional
"open-frame" stack: the C parser's stack of pointers to open objects is
represented as a list of frames whose children are materialised into a
`TNode.nobj` when the frame is popped.  While a frame sits on the stack its
C object receives no further children (the parent of every appended
property is the stack top after popping), so deferring materialisation to
pop time yields the same final tree.  Diagnostics written to stderr
(`fprintf(stderr, "Syntax error at line %d ...")`) are modelled as a list
of line numbers threaded through the parse.
-/

namespace TOONc

abbrev Chars := List Char

/-- C `isspace` in the C locale: space, \t, \n, \v, \f, \r. -/
def isSpaceC (c : Char) : Bool :=
  c = ' ' || c = '\t' || c = '\n' || c = Char.ofNat 11 || c = Char.ofNat 12 || c = '\r'

/-- The `kvtype` tags of `toonObject` (KV_STRING .. KV_LIST). -/
inductive TKind : Type where
  | kstring
  | kint
  | kdouble
  | kbool
  | knull
  | kobj
  | klist
deriving DecidableEq

/-- `toonObject`: one constructor per `kvtype`, carrying the optional `key`,
the `indent` field, and the payload of the union arm that is valid for the
tag.  The `double` payload is modelled as the exact numeral string that the
C code hands to `atof` (binary floating point is outside the embedding; the
numeral determines the stored value).  Object children are the `child`/
`next` sibling chain in order; list items are the `array.items` vector in
order (the `capacity` field is an allocation detail with no observable
content beyond `len`). -/
inductive TNode : Type where
  | nstr (key : Option Chars) (indent : Nat) (s : Chars)
  | nint (key : Option Chars) (indent : Nat) (n : Int)
  | ndouble (key : Option Chars) (indent : Nat) (s : Chars)
  | nbool (key : Option Chars) (indent : Nat) (b : Bool)
  | nnull (key : Option Chars) (indent : Nat)
  | nobj (key : Option Chars) (indent : Nat) (children : List TNode)
  | nlist (key : Option Chars) (indent : Nat) (items : List TNode)

def kindOf : TNode → TKind
  | .nstr _ _ _ => .kstring
  | .nint _ _ _ => .kint
  | .ndouble _ _ _ => .kdouble
  | .nbool _ _ _ => .kbool
  | .nnull _ _ => .knull
  | .nobj _ _ _ => .kobj
  | .nlist _ _ _ => .klist

def keyOf : TNode → Option Chars
  | .nstr k _ _ => k
  | .nint k _ _ => k
  | .ndouble k _ _ => k
  | .nbool k _ _ => k
  | .nnull k _ => k
  | .nobj k _ _ => k
  | .nlist k _ _ => k

/-- `prop->key = ...` (the parser overwrites the key of a freshly made node). -/
def setKey (k : Option Chars) : TNode → TNode
  | .nstr _ i s => .nstr k i s
  | .nint _ i n => .nint k i n
  | .ndouble _ i s => .ndouble k i s
  | .nbool _ i b => .nbool k i b
  | .nnull _ i => .nnull k i
  | .nobj _ i cs => .nobj k i cs
  | .nlist _ i xs => .nlist k i xs

/-- `prop->indent = ...`. -/
def setIndent (i : Nat) : TNode → TNode
  | .nstr k _ s => .nstr k i s
  | .nint k _ n => .nint k i n
  | .ndouble k _ s => .ndouble k i s
  | .nbool k _ b => .nbool k i b
  | .nnull k _ => .nnull k i
  | .nobj k _ cs => .nobj k i cs
  | .nlist k _ xs => .nlist k i xs

/-- The `child`/`next` chain of a node.  The parser only ever attaches
children to `KV_OBJ` nodes (scalars and lists built by it keep `child ==
NULL`), so only the object constructor carries a chain. -/
def childrenOf : TNode → List TNode
  | .nobj _ _ cs => cs
  | _ => []

/-- `listPush` (toonc.c): appends to the array payload of a `KV_LIST` node
and is a no-op (`if (list->kvtype != KV_LIST) return;`) on every other
kind.  The capacity-doubling reallocation only changes the allocation, not
the stored sequence. -/
def listPush (list : TNode) (item : TNode) : TNode :=
  match list with
  | .nlist k i items => .nlist k i (items ++ [item])
  | other => other

/-! ## Parsing primitives -/

/-- `parseSpaces`: advance past spaces and tabs. -/
def dropSpacesTabs (input : Chars) : Chars :=
  input.dropWhile (fun c => c = ' ' || c = '\t')

/-- `parseNewLine`: consume one '\n' and bump the line counter. -/
def parseNewLine (input : Chars) (line : Nat) : Chars × Nat :=
  match input with
  | '\n' :: rest => (rest, line + 1)
  | _ => (input, line)

/-- `parseIndent`: count leading spaces, two spaces per level. -/
def parseIndent (input : Chars) : Nat × Chars :=
  ((input.takeWhile (fun c => c = ' ')).length / 2,
   input.dropWhile (fun c => c = ' '))

def isKeyChar (c : Char) : Bool :=
  !(c = ':' || c = '[' || c = '{' || c = '\n')

/-- Trailing-whitespace trim used by `parseKey`. -/
def trimTrailing (l : Chars) : Chars :=
  (l.reverse.dropWhile isSpaceC).reverse

/-- `parseKey`: scan to the first of ':', '[', '{', '\n' or end of input,
then trim trailing whitespace from the scanned span.  Returns the key and
the rest of the input (starting at the delimiter). -/
def parseKey (input : Chars) : Chars × Chars :=
  (trimTrailing (input.takeWhile isKeyChar), input.dropWhile isKeyChar)

/-- Value of a digit run, as computed by `atoi` on it. -/
def natOfDigits (l : Chars) : Nat :=
  l.foldl (fun a c => a * 10 + (c.toNat - 48)) 0

/-- `parseArraySize`: parse `[N]`, returning -1 when there is no '[' or no
digit follows it.  (C `int` overflow on huge digit runs is undefined; the
embedding uses unbounded integers.) -/
def parseArraySize (input : Chars) : Int × Chars :=
  match input with
  | '[' :: p1 =>
    match p1 with
    | c :: _ =>
      if c.isDigit then
        let size : Int := Int.ofNat (natOfDigits (p1.takeWhile Char.isDigit))
        let p2 := p1.dropWhile Char.isDigit
        (size, if p2.head? = some ']' then p2.drop 1 else p2)
      else
        (-1, if p1.head? = some ']' then p1.drop 1 else p1)
    | [] => (-1, [])
  | _ => (-1, input)

def isColNameChar (c : Char) : Bool := !(c = ',' || c = '}')

/-- Second pass of `parseTableColumns`: extract the column names up to '}'.
Fuel-indexed; the caller supplies at least the input length. -/
def extractCols : Nat → Chars → List Chars × Chars
  | 0, input => ([], input)
  | fuel + 1, input =>
    match input with
    | [] => ([], [])
    | c :: _ =>
      if c = '}' then ([], input)
      else
        let name := input.takeWhile isColNameChar
        let r1 := input.dropWhile isColNameChar
        let r2 := if r1.head? = some ',' then r1.drop 1 else r1
        let (names, rest) := extractCols fuel r2
        (name :: names, rest)

/-- `parseTableColumns`: given input starting at '{', count the columns as
commas-before-'}' plus one, extract the names, and skip the closing '}'.
Returns `(col_count, names, rest)`.  When the brace region is empty the C
code reports `col_count = 1` while extracting no name, and later reads of
`columns[0]` are uninitialised memory (undefined); the embedding's callers
substitute the empty name there. -/
def parseTableColumns (input : Chars) : Option (Nat × List Chars × Chars) :=
  match input with
  | '{' :: p1 =>
    let region := p1.takeWhile (fun c => !(c = '}'))
    let count := 1 + region.countP (fun c => c = ',')
    let (names, r) := extractCols p1.length p1
    some (count, names, if r.head? = some '}' then r.drop 1 else r)
  | _ => none

/-- `isNumber`: classify a span as numeric, reporting whether it is
floating (`some isFloat`) or rejecting it (`none`), transcribed phase by
phase from the C scan.

Exponent sign: `if (i < len && (s[i] == '+' || s[i] == '-')) i++;`. -/
def expSignStrip (s1 : Chars) : Chars :=
  match s1 with
  | d :: r => if d = '+' || d = '-' then r else s1
  | [] => []

/-- Exponent digits: at least one digit, then the span must be exhausted
(`return i == len`). -/
def expTail : Chars → Option Bool
  | [] => none
  | d :: r =>
    if d.isDigit then
      if (d :: r).dropWhile Char.isDigit = [] then some true else none
    else none

/-- Exponent phase: `if (i < len && (s[i]=='e' || s[i]=='E'))`; when no
exponent follows, the scan succeeds exactly when the span is exhausted. -/
def expPhase (isFloat : Bool) (s : Chars) : Option Bool :=
  match s with
  | [] => some isFloat
  | c :: s1 =>
    if c = 'e' || c = 'E' then expTail (expSignStrip s1)
    else none

/-- Digits after the decimal point: at least one is required. -/
def fracTail : Chars → Option Bool
  | [] => none
  | d :: r =>
    if d.isDigit then expPhase true ((d :: r).dropWhile Char.isDigit)
    else none

/-- Fraction phase: `if (i < len && s[i] == '.')`. -/
def fracPhase (s : Chars) : Option Bool :=
  match s with
  | c :: s3 => if c = '.' then fracTail s3 else expPhase false (c :: s3)
  | [] => expPhase false []

/-- Integer part: after the optional sign there must be at least one
digit. -/
def intPart : Chars → Option Bool
  | [] => none
  | d :: r =>
    if d.isDigit then fracPhase ((d :: r).dropWhile Char.isDigit)
    else none

def isNumber (s : Chars) : Option Bool :=
  match s with
  | [] => none
  | c :: rest => intPart (if c = '-' || c = '+' then rest else c :: rest)

/-- `atoi` on a span (leading C whitespace, optional sign, digit run). -/
def atoiChars (s : Chars) : Int :=
  match s.dropWhile isSpaceC with
  | '-' :: r => - Int.ofNat (natOfDigits (r.takeWhile Char.isDigit))
  | '+' :: r => Int.ofNat (natOfDigits (r.takeWhile Char.isDigit))
  | t => Int.ofNat (natOfDigits (t.takeWhile Char.isDigit))

def isValueChar (c : Char) : Bool := !(c = '\n' || c = ',')

def trimBoth (l : Chars) : Chars :=
  trimTrailing (l.dropWhile isSpaceC)

/-- `parseValue`: parse one scalar up to the next '\n' or ','.  `none`
models the C NULL return ("empty value means nested object").  Numeric
spans of 128 or more characters do not fit the C conversion buffer and
fall through to String. -/
def parseValue (input : Chars) : Option TNode × Chars :=
  let p0 := dropSpacesTabs input
  match p0 with
  | [] => (none, p0)
  | c :: _ =>
    if c = '\n' then (none, p0)
    else
      let rest := p0.dropWhile isValueChar
      let span := trimBoth (p0.takeWhile isValueChar)
      if span = [] then (some (.nnull none 0), rest)
      else if 2 ≤ span.length ∧ span.head? = some '"' ∧ span.getLast? = some '"' then
        (some (.nstr none 0 (span.drop 1).dropLast), rest)
      else if span = "true".toList then (some (.nbool none 0 true), rest)
      else if span = "false".toList then (some (.nbool none 0 false), rest)
      else if span = "null".toList then (some (.nnull none 0), rest)
      else
        match isNumber span with
        | some isFloat =>
          if span.length < 128 then
            if isFloat then (some (.ndouble none 0 span), rest)
            else (some (.nint none 0 (atoiChars span)), rest)
          else (some (.nstr none 0 span), rest)
        | none => (some (.nstr none 0 span), rest)

/-- Loop of `parseListValues`.  Fuel-indexed (each iteration either
consumes input or stops); callers supply at least the input length. -/
def parseListLoop : Nat → Chars → List TNode × Chars
  | 0, input => ([], input)
  | fuel + 1, input =>
    match input with
    | [] => ([], input)
    | c :: _ =>
      if c = '\n' then ([], input)
      else
        let (item?, p1) := parseValue input
        let items0 := match item? with
          | some v => [v]
          | none => []
        if p1.head? = some ',' then
          let (more, p2) := parseListLoop fuel (p1.drop 1)
          (items0 ++ more, p2)
        else (items0, p1)

/-- `parseListValues`: comma-separated scalars on one line, as a list node. -/
def parseListValues (input : Chars) : TNode × Chars :=
  let (items, rest) := parseListLoop (input.length + 1) input
  (.nlist none 0 items, rest)

/-- `skipLine`: discard the rest of the current line and its newline. -/
def skipLine (input : Chars) (line : Nat) : Chars × Nat :=
  parseNewLine (input.dropWhile (fun c => !(c = '\n'))) line

/-! ## Tabular row parsing -/

/-- Inner column loop of `parseTableRows`: for each column name in order,
parse one comma-delimited field and, when the field exists (`parseValue`
returns a node), attach the column name and `indent = 1` and link it into
the row's property chain; the comma is skipped between columns but not
after the last one (`col < col_count - 1`). -/
def parseRowCols : List Chars → Chars → List TNode × Chars
  | [], input => ([], input)
  | col :: restCols, input =>
    let (v?, p1) := parseValue input
    let props0 := match v? with
      | some v => [setIndent 1 (setKey (some col) v)]
      | none => []
    let p2 := if restCols ≠ [] ∧ p1.head? = some ',' then p1.drop 1 else p1
    let (props, p3) := parseRowCols restCols p2
    (props0 ++ props, p3)

/-- Row loop of `parseTableRows`: runs at most `expected_rows` times
(`for (int row = 0; row < expected_rows; row++)`); each iteration consumes
a newline and the row's indentation, stops early at a blank line or end of
input, and otherwise builds a keyless `KV_OBJ` row from the column loop. -/
def parseTableLoop (cols : List Chars) : Nat → Chars → Nat → List TNode × Chars × Nat
  | 0, input, line => ([], input, line)
  | n + 1, input, line =>
    let (p1, line1) := parseNewLine input line
    let p2 := dropSpacesTabs p1
    match p2 with
    | [] => ([], p2, line1)
    | c :: _ =>
      if c = '\n' then ([], p2, line1)
      else
        let (props, p3) := parseRowCols cols p2
        let row := TNode.nobj none 0 props
        let (rows, p4, line4) := parseTableLoop cols n p3 line1
        (row :: rows, p4, line4)

/-- `parseTableRows`: the declared row count is a C `int` (-1 when the
header had no `[N]`), so the loop bound is `max expected_rows 0`
(`Int.toNat`): a negative count yields zero iterations. -/
def parseTableRows (cols : List Chars) (expectedRows : Int) (input : Chars)
    (line : Nat) : TNode × Chars × Nat :=
  let (rows, rest, line1) := parseTableLoop cols expectedRows.toNat input line
  (.nlist none 0 rows, rest, line1)

/-! ## The structural parser (indent-stack machine) -/

/-- An open `KV_OBJ` node on the parser's stack: its key, indent, and the
children attached to it so far.  The C stack holds pointers into the tree
under construction; because every property is appended to the object on
top of the (popped) stack, an object deeper on the stack receives no new
children while anything sits above it, so the frame's children are final
when it is popped and the node can be materialised at that point. -/
structure Frame : Type where
  key : Option Chars
  indent : Nat
  children : List TNode

/-- Pop one stack entry (`stack_size--`): the top frame becomes a complete
object node, which is already the last child of the frame below it. -/
def popOnce : List Frame → List Frame
  | f :: g :: rest =>
    { g with children := g.children ++ [TNode.nobj f.key f.indent f.children] } :: rest
  | s => s

/-- Iterated pops. -/
def popN : Nat → List Frame → List Frame
  | 0, s => s
  | n + 1, s => popN n (popOnce s)

/-- `while (stack_size > indent + 1) stack_size--;` with `target = indent +
1`: each pass of the loop shrinks the stack by one, so it performs exactly
`stack_size - target` pops (none when the height is already at most the
target). -/
def popTo (target : Nat) (stack : List Frame) : List Frame :=
  popN (stack.length - target) stack

/-- Append a property as the last child of the object on top of the stack
(walk the sibling chain and append). -/
def attachTop (prop : TNode) (stack : List Frame) : List Frame :=
  match stack with
  | f :: rest => { f with children := f.children ++ [prop] } :: rest
  | [] => []

/-- Lines 726-745 of the parser for a property that has a value: pop the
stack to height `indent + 1`, then append the property to the new top. -/
def reparentAttach (stack : List Frame) (indent : Nat) (prop : TNode) : List Frame :=
  attachTop prop (popTo (indent + 1) stack)

/-- Lines 726-753 for a valueless property (nested object): pop to height
`indent + 1`, append the fresh empty object, and push it when the stack
has room (`if (stack_size < 64)`); at capacity it is appended but not
pushed. -/
def reparentPush (stack : List Frame) (indent : Nat) (key : Option Chars) : List Frame :=
  let s := popTo (indent + 1) stack
  if s.length < 64 then ⟨key, indent, []⟩ :: s
  else attachTop (TNode.nobj key indent []) s

/-- End of parsing: pop every remaining open frame into its parent and
return the root object (the bottom of the stack). -/
def finalize (stack : List Frame) : TNode :=
  match popN (stack.length - 1) stack with
  | f :: _ => .nobj f.key f.indent f.children
  | [] => .nobj none 0 []

/-- One iteration of the main `while (parser.p[0])` loop, for nonempty
input: returns the next `(input, line, stack, diagnostics)` state.  Note
that `isCommentOrEmpty` consumes the line's leading spaces and tabs before
`parseIndent` runs, so the indentation measured by `parseIndent` here is
what the C code actually measures at that point. -/
def parseLine (input : Chars) (line : Nat) (stack : List Frame)
    (diags : List Nat) : Chars × Nat × List Frame × List Nat :=
  let p1 := dropSpacesTabs input
  if p1.head? = some '#' ∨ p1.head? = some '\n' ∨ p1 = [] then
    match p1 with
    | [] => (p1, line, stack, diags)
    | _ =>
      let (p2, l2) := skipLine p1 line
      (p2, l2, stack, diags)
  else
    let (ind, p2) := parseIndent p1
    let (key, p3) := parseKey p2
    if key = [] then
      let (p4, l4) := skipLine p3 line
      (p4, l4, stack, diags)
    else
      let (asize, p4) := parseArraySize p3
      match (if p4.head? = some '{' then parseTableColumns p4 else none) with
      | some (colCount, names, p5) =>
        if p5.head? = some ':' then
          let colNames := (List.range colCount).map (fun i => names.getD i [])
          let (table, p6, l6) := parseTableRows colNames asize (p5.drop 1) line
          let prop := setIndent ind (setKey (some key) table)
          let (p7, l7) := parseNewLine p6 l6
          (p7, l7, reparentAttach stack ind prop, diags)
        else
          let (p6, l6) := skipLine p5 line
          (p6, l6, stack, diags ++ [line])
      | none =>
        if p4.head? = some ':' then
          let p5 := p4.drop 1
          if 0 ≤ asize then
            let (arr, p6) := parseListValues p5
            let prop := setIndent ind (setKey (some key) arr)
            let (p7, l7) := parseNewLine p6 line
            (p7, l7, reparentAttach stack ind prop, diags)
          else
            match parseValue p5 with
            | (some v, p6) =>
              let prop := setIndent ind (setKey (some key) v)
              let (p7, l7) := parseNewLine p6 line
              (p7, l7, reparentAttach stack ind prop, diags)
            | (none, p6) =>
              let (p7, l7) := parseNewLine p6 line
              (p7, l7, reparentPush stack ind (some key), diags)
        else
          let (p6, l6) := skipLine p4 line
          (p6, l6, stack, diags ++ [line])

/-- Fuel-indexed main loop; every iteration on nonempty input consumes at
least one character, so `source.length + 1` units of fuel suffice. -/
def parseLoop : Nat → Chars → Nat → List Frame → List Nat → TNode × List Nat
  | 0, _, _, stack, diags => (finalize stack, diags)
  | fuel + 1, input, line, stack, diags =>
    match input with
    | [] => (finalize stack, diags)
    | _ :: _ =>
      let (p2, l2, st2, dg2) := parseLine input line stack diags
      parseLoop fuel p2 l2 st2 dg2

/-- `parse`: root is always a fresh `KV_OBJ`; the stack starts as `[root]`
and the line counter at 1.  The second component is the list of lines at
which a "Syntax error ... expected ':'" diagnostic was written. -/
def parse (source : Chars) : TNode × List Nat :=
  parseLoop (source.length + 1) source 1 [⟨none, 0, []⟩] []

/-- `TOONc_parseString`: copies the buffer and parses it (the copy is an
allocation detail). -/
def TOONc_parseString (s : Chars) : TNode :=
  (parse s).1

/-- `TOONc_parseFile`, modelled on the byte contents of the stream: the C
code returns NULL when `ftell` reports a size of zero (or the stream is
NULL), and otherwise reads the whole file and parses it. -/
def TOONc_parseFile (contents : Chars) : Option TNode :=
  if contents.length = 0 then none else some (parse contents).1

/-! ## Query engine -/

/-- Successive `strtok(_, ".")` tokens: the non-empty fields of the
dot-separated split. -/
def splitOnDot : Chars → List Chars
  | [] => [[]]
  | c :: r =>
    if c = '.' then [] :: splitOnDot r
    else
      match splitOnDot r with
      | t :: ts => (c :: t) :: ts
      | [] => [[c]]

def strtokDots (p : Chars) : List Chars :=
  (splitOnDot p).filter (fun t => t ≠ [])

/-- The child-scan of `TOONc_get`: first child whose (non-NULL) key equals
the token. -/
def findChildByKey (n : TNode) (tok : Chars) : Option TNode :=
  (childrenOf n).find? (fun c => keyOf c = some tok)

def getPath : TNode → List Chars → Option TNode
  | n, [] => some n
  | n, tok :: toks =>
    match findChildByKey n tok with
    | some c => getPath c toks
    | none => none

/-- `TOONc_get`: NULL root or NULL path give NULL; otherwise navigate the
strtok tokens of the path from the root. -/
def TOONc_get (root : Option TNode) (path : Option Chars) : Option TNode :=
  match root, path with
  | some r, some p => getPath r (strtokDots p)
  | _, _ => none

/-! ## Array access -/

/-- Result of `TOONc_getArrayItem`.  `read x` models the code proceeding
to evaluate `arr->array.items[index]`: for `index < len` this is the
stored element (`x = some item`); for `index = len` (which the bounds
check `index > len` fails to reject) it is a read one past the end of the
allocation, undefined behaviour in C, modelled as `read none`. -/
inductive ArrayItemResult : Type where
  | notFound
  | read (item : Option TNode)

/-- `TOONc_getArrayItem`: non-list input or `index > len` give "not
found"; otherwise the code indexes the items array.  (`index < 0` in the
C source is vacuous for the unsigned `size_t` index, as is mirrored by
`Nat` here.) -/
def TOONc_getArrayItem (arr : Option TNode) (index : Nat) : ArrayItemResult :=
  match arr with
  | some (.nlist _ _ items) =>
    if index > items.length then .notFound
    else .read (items.get? index)
  | _ => .notFound

/-! ## Generic list lemmas used by the proofs -/

theorem dropWhile_append_of_all {p : Char → Bool} :
    ∀ {l : Chars}, (∀ c ∈ l, p c = true) → ∀ t : Chars,
      (l ++ t).dropWhile p = t.dropWhile p := by
  intro l
  induction l with
  | nil => intro _ t; rfl
  | cons c r ih =>
    intro h t
    have hc : p c = true := h c (by simp)
    simp [List.dropWhile, hc]
    exact ih (fun x hx => h x (by simp [hx])) t

theorem takeWhile_append_of_all {p : Char → Bool} :
    ∀ {l : Chars}, (∀ c ∈ l, p c = true) → ∀ t : Chars,
      (l ++ t).takeWhile p = l ++ t.takeWhile p := by
  intro l
  induction l with
  | nil => intro _ t; rfl
  | cons c r ih =>
    intro h t
    have hc : p c = true := h c (by simp)
    simp [List.takeWhile, hc]
    exact ih (fun x hx => h x (by simp [hx])) t

theorem dropWhile_cons_of_neg {p : Char → Bool} {c : Char} (t : Chars)
    (h : p c = false) : (c :: t).dropWhile p = c :: t := by
  simp [List.dropWhile, h]

theorem dropWhile_cons_of_pos {p : Char → Bool} {c : Char} (t : Chars)
    (h : p c = true) : (c :: t).dropWhile p = t.dropWhile p := by
  simp [List.dropWhile, h]

theorem takeWhile_cons_of_neg {p : Char → Bool} {c : Char} (t : Chars)
    (h : p c = false) : (c :: t).takeWhile p = [] := by
  simp [List.takeWhile, h]

theorem allDigits_of_dropWhile_nil {l : Chars}
    (h : l.dropWhile Char.isDigit = []) : ∀ c ∈ l, c.isDigit = true := by
  intro c hc
  exact List.dropWhile_eq_nil_iff.mp h c hc

/-! ## Claim theorems -/

/-- Claim C10: `listPush` on a node whose kind is not List returns the node
unchanged — no field is modified, the payload is not reinterpreted as an
array, and the item is not attached anywhere. -/
theorem claim_C10 (x item : TNode) (h : kindOf x ≠ TKind.klist) :
    listPush x item = x := by
  cases x <;> first | rfl | exact absurd rfl h

theorem claim_C10_witness :
    kindOf (TNode.nint none 0 5) ≠ TKind.klist ∧
      listPush (TNode.nint none 0 5) (TNode.nnull none 0) = TNode.nint none 0 5 :=
  ⟨by decide, claim_C10 (TNode.nint none 0 5) (TNode.nnull none 0) (by decide)⟩

theorem strtokDots_all_dots :
    ∀ {p : Chars}, (∀ c ∈ p, c = '.') → strtokDots p = [] := by
  intro p
  induction p with
  | nil => intro _; rfl
  | cons c r ih =>
    intro h
    have hc : c = '.' := h c (by simp)
    subst hc
    have hr := ih (fun x hx => h x (by simp [hx]))
    simp only [strtokDots, splitOnDot, if_pos rfl] at *
    simpa [List.filter] using hr

/-- Claim C9: `TOONc_get` with an empty path, or a path made only of '.'
separators, returns the root itself (strtok produces no tokens, the
navigation loop never runs); a NULL root or NULL path gives "not found". -/
theorem claim_C9 :
    (∀ r : TNode, TOONc_get (some r) (some []) = some r)
    ∧ (∀ (r : TNode) (p : Chars), (∀ c ∈ p, c = '.') →
        TOONc_get (some r) (some p) = some r)
    ∧ (∀ p : Option Chars, TOONc_get none p = none)
    ∧ (∀ r : Option TNode, TOONc_get r none = none) := by
  refine ⟨fun r => rfl, fun r p h => ?_, fun p => ?_, fun r => ?_⟩
  · simp [TOONc_get, strtokDots_all_dots h, getPath]
  · cases p <;> rfl
  · cases r <;> rfl

theorem claim_C9_witness :
    (∀ c ∈ ("...".toList), c = '.')
    ∧ TOONc_get (some (TNode.nnull none 0)) (some ("...".toList))
        = some (TNode.nnull none 0) :=
  ⟨by decide, claim_C9.2.1 (TNode.nnull none 0) ("...".toList) (by decide)⟩

/-- Claim C1 (evaluation at the failing input): for the spec's own example
`nums[3]: 1,2,3`, indices 0..2 return the stored Int elements, index 4
returns "not found", but index 3 — one past the end of a 3-element list,
which the claim and the repository's own test suite require to be "not
found" — passes the `index > len` bounds check and the code reads
`items[3]`, one element past the end of the array (undefined behaviour in
C, `read none` in the model) instead of returning "not found". -/
theorem claim_C1 :
    TOONc_get (some (parse ("nums[3]: 1,2,3\n".toList)).1) (some ("nums".toList))
      = some (TNode.nlist (some ("nums".toList)) 0
          [TNode.nint none 0 1, TNode.nint none 0 2, TNode.nint none 0 3])
    ∧ TOONc_getArrayItem
        (TOONc_get (some (parse ("nums[3]: 1,2,3\n".toList)).1) (some ("nums".toList))) 0
      = ArrayItemResult.read (some (TNode.nint none 0 1))
    ∧ TOONc_getArrayItem
        (TOONc_get (some (parse ("nums[3]: 1,2,3\n".toList)).1) (some ("nums".toList))) 1
      = ArrayItemResult.read (some (TNode.nint none 0 2))
    ∧ TOONc_getArrayItem
        (TOONc_get (some (parse ("nums[3]: 1,2,3\n".toList)).1) (some ("nums".toList))) 2
      = ArrayItemResult.read (some (TNode.nint none 0 3))
    ∧ TOONc_getArrayItem
        (TOONc_get (some (parse ("nums[3]: 1,2,3\n".toList)).1) (some ("nums".toList))) 3
      = ArrayItemResult.read none
    ∧ TOONc_getArrayItem
        (TOONc_get (some (parse ("nums[3]: 1,2,3\n".toList)).1) (some ("nums".toList))) 4
      = ArrayItemResult.notFound :=
  ⟨rfl, rfl, rfl, rfl, rfl, rfl⟩

/-- `parseValue` at a line end (end of input or the newline itself)
returns the NULL marker and consumes nothing. -/
theorem parseValue_at_line_end {input : Chars}
    (h : input = [] ∨ input.head? = some '\n') :
    parseValue input = (none, input) := by
  rcases h with h | h
  · subst h; rfl
  · cases input with
    | nil => simp at h
    | cons c t =>
      have hc : c = '\n' := by simpa using h
      subst hc
      rfl

/-- Once the cursor of the tabular column loop sits at the end of the row
line, every remaining declared column contributes no property at all and
the cursor stays put. -/
theorem parseRowCols_at_line_end :
    ∀ (cols : List Chars) {input : Chars},
      (input = [] ∨ input.head? = some '\n') →
      parseRowCols cols input = ([], input) := by
  intro cols
  induction cols with
  | nil => intro input _; rfl
  | cons col rest ih =>
    intro input h
    have hv := parseValue_at_line_end h
    have hhead : ¬ input.head? = some ',' := by
      rcases h with h | h
      · subst h; simp
      · simp [h]
    have hcond : ¬(rest ≠ [] ∧ input.head? = some ',') := fun hc => hhead hc.2
    simp only [parseRowCols, hv, if_neg hcond, ih h, List.nil_append]

/-- Claim C2 counterexample: in `t[1]{a,b,c}:` with row `1,2`, the row
Object has only the two properties `a` and `b` — the missing trailing
column `c` is not present at all, in particular not as a Null-valued
property, contradicting "one property per declared column". -/
theorem claim_C2_counterexample :
    parse ("t[1]{a,b,c}:\n  1,2\n".toList)
      = (TNode.nobj none 0
          [TNode.nlist (some ("t".toList)) 0
            [TNode.nobj none 0
              [TNode.nint (some ("a".toList)) 1 1,
               TNode.nint (some ("b".toList)) 1 2]]], [])
    ∧ TOONc_get
        (some (TNode.nobj none 0
          [TNode.nint (some ("a".toList)) 1 1,
           TNode.nint (some ("b".toList)) 1 2]))
        (some ("c".toList)) = none
    ∧ (childrenOf (TNode.nobj none 0
          [TNode.nint (some ("a".toList)) 1 1,
           TNode.nint (some ("b".toList)) 1 2])).length = 2 :=
  ⟨rfl, rfl, rfl⟩

/-- Claim C2 (amended): a row with fewer comma-delimited fields than
declared columns yields one property per column whose field exists on the
line, in declared order; an empty field *between* commas is an explicit
Null property, but the missing trailing columns are omitted from the row
Object entirely (the field scan returns the NULL "no value" marker at the
line end, and properties are only linked for non-NULL scan results). -/
theorem claim_C2 :
    parse ("t[1]{a,b,c}:\n  1,2\n".toList)
      = (TNode.nobj none 0
          [TNode.nlist (some ("t".toList)) 0
            [TNode.nobj none 0
              [TNode.nint (some ("a".toList)) 1 1,
               TNode.nint (some ("b".toList)) 1 2]]], [])
    ∧ parse ("u[1]{a,b,c}:\n  1,,3\n".toList)
      = (TNode.nobj none 0
          [TNode.nlist (some ("u".toList)) 0
            [TNode.nobj none 0
              [TNode.nint (some ("a".toList)) 1 1,
               TNode.nnull (some ("b".toList)) 1,
               TNode.nint (some ("c".toList)) 1 3]]], [])
    ∧ (∀ (cols : List Chars) (input : Chars),
        (input = [] ∨ input.head? = some '\n') →
        parseRowCols cols input = ([], input)) :=
  ⟨rfl, rfl, fun cols _input h => parseRowCols_at_line_end cols h⟩

theorem claim_C2_witness :
    (("\n".toList : Chars) = [] ∨ ("\n".toList : Chars).head? = some '\n')
    ∧ parseRowCols ["c".toList] ("\n".toList) = ([], "\n".toList) :=
  ⟨Or.inr rfl, claim_C2.2.2 ["c".toList] ("\n".toList) (Or.inr rfl)⟩

/-- Claim C3 counterexample: for `t{a,b}:` with no `[N]`, the row line
`1,2` does **not** become a row-object — the table loop runs `expected_rows
= -1` times, i.e. not at all, so `t` is an empty List; the following row
line is instead handled by the structural parser as a malformed line
(missing ':'), producing a diagnostic at line 2. -/
theorem claim_C3_counterexample :
    parse ("t{a,b}:\n1,2\n".toList)
      = (TNode.nobj none 0 [TNode.nlist (some ("t".toList)) 0 []], [2]) :=
  rfl

/-- Claim C3 (amended): a `{c1,...}` header with no preceding `[N]` still
dispatches to the Tabular Row Parser, but with the sentinel row count -1,
whose `for (row = 0; row < expected_rows; ...)` loop performs zero
iterations: the property becomes an empty List, no following line is
consumed as a row, and the row lines fall through to the structural parser
(which rejects them as lines with a missing ':'). -/
theorem claim_C3 :
    (∀ (cols : List Chars) (n : Int) (input : Chars) (line : Nat),
      n < 0 →
      parseTableRows cols n input line = (TNode.nlist none 0 [], input, line))
    ∧ parse ("t{a,b}:\n1,2\n".toList)
      = (TNode.nobj none 0 [TNode.nlist (some ("t".toList)) 0 []], [2])
    ∧ TOONc_get (some (parse ("t{a,b}:\n1,2\n".toList)).1) (some ("t".toList))
      = some (TNode.nlist (some ("t".toList)) 0 []) := by
  refine ⟨fun cols n input line hn => ?_, rfl, rfl⟩
  have h0 : n.toNat = 0 := Int.toNat_of_nonpos hn.le
  simp [parseTableRows, h0, parseTableLoop]

theorem claim_C3_witness :
    ((-1 : Int) < 0)
    ∧ parseTableRows ["a".toList, "b".toList] (-1) ("\n1,2\n".toList) 1
      = (TNode.nlist none 0 [], "\n1,2\n".toList, 1) :=
  ⟨by decide, claim_C3.1 ["a".toList, "b".toList] (-1) ("\n1,2\n".toList) 1 (by decide)⟩

theorem dropWhile_eq_self_of_all_neg {p : Char → Bool} :
    ∀ {l : Chars}, (∀ c ∈ l, p c = false) → l.dropWhile p = l := by
  intro l
  cases l with
  | nil => intro _; rfl
  | cons c t => intro h; exact dropWhile_cons_of_neg t (h c (by simp))

theorem trimTrailing_of_no_space {l : Chars}
    (h : ∀ c ∈ l, isSpaceC c = false) : trimTrailing l = l := by
  unfold trimTrailing
  rw [dropWhile_eq_self_of_all_neg (fun c hc => h c (List.mem_reverse.mp hc))]
  exact l.reverse_reverse

/-- The structural parser's recovery for a line whose key is followed by no
':' (here: a line `bad` containing no delimiter at all): a diagnostic
carrying the current line number is recorded, the rest of the line and its
newline are discarded, and the state is otherwise untouched. -/
theorem missingColonStep (bad rest : Chars) (line : Nat) (stack : List Frame)
    (diags : List Nat)
    (hne : bad ≠ [])
    (hk : ∀ c ∈ bad, isKeyChar c = true)
    (hs : ∀ c ∈ bad, isSpaceC c = false)
    (hh : bad.head? ≠ some '#') :
    parseLine (bad ++ '\n' :: rest) line stack diags
      = (rest, line + 1, stack, diags ++ [line]) := by
  obtain ⟨b, bs, rfl⟩ : ∃ b bs, bad = b :: bs := by
    cases bad with
    | nil => exact absurd rfl hne
    | cons b bs => exact ⟨b, bs, rfl⟩
  have hkb : isKeyChar b = true := hk b (by simp)
  have hsb : isSpaceC b = false := hs b (by simp)
  have hbnl : ¬ b = '\n' := by
    intro hb; subst hb; simp [isKeyChar] at hkb
  have hbsp : ¬ b = ' ' := by
    intro hb; subst hb; simp [isSpaceC] at hsb
  have hbtab : ¬ b = '\t' := by
    intro hb; subst hb; simp [isSpaceC] at hsb
  have hbst : (b = ' ' || b = '\t') = false := by simp [hbsp, hbtab]
  have hbhash : ¬ b = '#' := by
    intro hb; exact hh (by simp [hb])
  have hp1 : dropSpacesTabs ((b :: bs) ++ '\n' :: rest) = (b :: bs) ++ '\n' :: rest :=
    dropWhile_cons_of_neg _ hbst
  have hcond : ¬(((b :: bs) ++ '\n' :: rest).head? = some '#'
      ∨ ((b :: bs) ++ '\n' :: rest).head? = some '\n'
      ∨ (b :: bs) ++ '\n' :: rest = ([] : Chars)) := by
    simp [hbhash, hbnl]
  have hindent : parseIndent ((b :: bs) ++ '\n' :: rest)
      = (0, (b :: bs) ++ '\n' :: rest) := by
    simp [parseIndent, List.takeWhile, List.dropWhile, hbsp]
  have htake : ((b :: bs) ++ '\n' :: rest).takeWhile isKeyChar = b :: bs := by
    rw [takeWhile_append_of_all hk,
      takeWhile_cons_of_neg (p := isKeyChar) (c := '\n') rest (by decide),
      List.append_nil]
  have hdrop : ((b :: bs) ++ '\n' :: rest).dropWhile isKeyChar = '\n' :: rest := by
    rw [dropWhile_append_of_all hk]
    exact dropWhile_cons_of_neg (p := isKeyChar) (c := '\n') rest (by decide)
  have hkey : parseKey ((b :: bs) ++ '\n' :: rest) = (b :: bs, '\n' :: rest) := by
    unfold parseKey
    rw [htake, hdrop, trimTrailing_of_no_space hs]
  have hskip : skipLine ('\n' :: rest) line = (rest, line + 1) := by
    unfold skipLine
    rw [dropWhile_cons_of_neg (p := fun c => !(c = '\n')) (c := '\n') rest (by simp)]
    rfl
  have hsize : parseArraySize ('\n' :: rest) = (-1, '\n' :: rest) := rfl
  simp only [parseLine, hp1, if_neg hcond, hindent, hkey, hsize,
    if_neg (by simp : ¬(b :: bs = ([] : Chars)))]
  simp [hskip]

/-- The structural parser's recovery for a line with an empty key (here: a
line starting directly with ':'): the line is skipped and parsing resumes
at the next line, with the tree, stack and diagnostics untouched — in
particular no diagnostic is recorded for this malformed line. -/
theorem emptyKeyStep (mid rest : Chars) (line : Nat) (stack : List Frame)
    (diags : List Nat)
    (hmid : ∀ c ∈ mid, ¬ c = '\n') :
    parseLine (':' :: (mid ++ '\n' :: rest)) line stack diags
      = (rest, line + 1, stack, diags) := by
  have hmid' : ∀ c ∈ mid, (!(c = '\n')) = true := by
    intro c hc; simp [hmid c hc]
  have hskip : skipLine (':' :: (mid ++ '\n' :: rest)) line = (rest, line + 1) := by
    unfold skipLine
    have h1 : List.dropWhile (fun c => !(c = '\n')) (':' :: (mid ++ '\n' :: rest))
        = '\n' :: rest := by
      rw [List.dropWhile_cons, if_pos (by simp), dropWhile_append_of_all hmid']
      exact dropWhile_cons_of_neg (p := fun c => !(c = '\n')) (c := '\n') rest (by simp)
    rw [h1]; rfl
  simp only [parseLine, dropSpacesTabs, parseIndent, parseKey, trimTrailing]
  simp [hskip, isKeyChar, List.dropWhile_cons, List.takeWhile_cons]

/-- Claim C4 counterexample: the document `: x` followed by `valid: ok` is
recovered from — the empty-key line is discarded and the rest parses — but
**no** diagnostic is emitted for it (the diagnostics list is empty): the
code's empty-key recovery path has no error output, only the missing-':'
path does. -/
theorem claim_C4_counterexample :
    parse (": x\nvalid: ok\n".toList)
      = (TNode.nobj none 0 [TNode.nstr (some ("valid".toList)) 0 ("ok".toList)], []) :=
  rfl

/-- Claim C4 (amended): a line with an empty key or a missing ':' is
recovered locally — the rest of the line is discarded, parsing continues
with the next line and never aborts, all syntactically valid surrounding
lines still yield their nodes, and `get` for the malformed line's intended
key returns "not found"; a diagnostic (the line number of the "expected
':'" message) is emitted for the missing-':' case only, while the
empty-key case is skipped silently. -/
theorem claim_C4 :
    parse ("a: 1\nbroken\n: x\nb: 2\n".toList)
      = (TNode.nobj none 0
          [TNode.nint (some ("a".toList)) 0 1,
           TNode.nint (some ("b".toList)) 0 2], [2])
    ∧ TOONc_get (some (parse ("a: 1\nbroken\n: x\nb: 2\n".toList)).1)
        (some ("broken".toList)) = none
    ∧ TOONc_get (some (parse ("a: 1\nbroken\n: x\nb: 2\n".toList)).1)
        (some ("a".toList)) = some (TNode.nint (some ("a".toList)) 0 1)
    ∧ TOONc_get (some (parse ("a: 1\nbroken\n: x\nb: 2\n".toList)).1)
        (some ("b".toList)) = some (TNode.nint (some ("b".toList)) 0 2)
    ∧ (∀ (bad rest : Chars) (line : Nat) (stack : List Frame) (diags : List Nat),
        bad ≠ [] →
        (∀ c ∈ bad, isKeyChar c = true) →
        (∀ c ∈ bad, isSpaceC c = false) →
        bad.head? ≠ some '#' →
        parseLine (bad ++ '\n' :: rest) line stack diags
          = (rest, line + 1, stack, diags ++ [line]))
    ∧ (∀ (mid rest : Chars) (line : Nat) (stack : List Frame) (diags : List Nat),
        (∀ c ∈ mid, ¬ c = '\n') →
        parseLine (':' :: (mid ++ '\n' :: rest)) line stack diags
          = (rest, line + 1, stack, diags)) :=
  ⟨rfl, rfl, rfl, rfl, missingColonStep, emptyKeyStep⟩

theorem claim_C4_witness :
    (("broken".toList : Chars) ≠ []
      ∧ parseLine ("broken".toList ++ '\n' :: ("b: 2\n".toList)) 2 [⟨none, 0, []⟩] []
          = ("b: 2\n".toList, 3, [⟨none, 0, []⟩], [2]))
    ∧ parseLine (':' :: (" x".toList ++ '\n' :: ("b: 2\n".toList))) 3 [⟨none, 0, []⟩] []
        = ("b: 2\n".toList, 4, [⟨none, 0, []⟩], []) :=
  ⟨⟨by decide,
    claim_C4.2.2.2.2.1 ("broken".toList) ("b: 2\n".toList) 2 [⟨none, 0, []⟩] []
      (by decide) (by decide) (by decide) (by decide)⟩,
   claim_C4.2.2.2.2.2 (" x".toList) ("b: 2\n".toList) 3 [⟨none, 0, []⟩] []
      (by decide)⟩

/-- Children attached so far to the object on top of the parser stack. -/
def headChildren : List Frame → List TNode
  | f :: _ => f.children
  | [] => []

theorem popN_length :
    ∀ (n : Nat) {s : List Frame}, s ≠ [] →
      (popN n s).length = max (s.length - n) 1 := by
  intro n
  induction n with
  | zero =>
    intro s hs
    cases s with
    | nil => exact absurd rfl hs
    | cons f r => simp only [popN, List.length_cons]; omega
  | succ n ih =>
    intro s hs
    cases s with
    | nil => exact absurd rfl hs
    | cons f r =>
      cases r with
      | nil =>
        have : popOnce [f] = [f] := rfl
        simp only [popN, this]
        rw [ih (by simp)]
        simp
      | cons g r2 =>
        have : popOnce (f :: g :: r2)
            = { g with children := g.children
                ++ [TNode.nobj f.key f.indent f.children] } :: r2 := rfl
        simp only [popN, this]
        rw [ih (by simp)]
        simp only [List.length_cons]
        omega

theorem popTo_length {s : List Frame} (hs : s ≠ []) {t : Nat} (ht : 1 ≤ t) :
    (popTo t s).length = min s.length t := by
  unfold popTo
  rw [popN_length _ hs]
  have h1 : 1 ≤ s.length := by
    cases s with
    | nil => exact absurd rfl hs
    | cons f r => simp
  omega

theorem popTo_length_le (t : Nat) (s : List Frame) :
    (popTo t s).length ≤ s.length := by
  cases s with
  | nil => simp [popTo, popN]
  | cons f r =>
    unfold popTo
    rw [popN_length _ (by simp)]
    have h1 : 1 ≤ (f :: r).length := by simp
    omega

theorem popTo_of_le {s : List Frame} {t : Nat} (h : s.length ≤ t) :
    popTo t s = s := by
  unfold popTo
  rw [Nat.sub_eq_zero_of_le h]
  rfl

theorem popOnce_ne_nil {s : List Frame} (hs : s ≠ []) : popOnce s ≠ [] := by
  cases s with
  | nil => exact absurd rfl hs
  | cons f r =>
    cases r with
    | nil => simp [popOnce]
    | cons g r2 => simp [popOnce]

theorem popN_ne_nil : ∀ (n : Nat) {s : List Frame}, s ≠ [] → popN n s ≠ [] := by
  intro n
  induction n with
  | zero => intro s hs; exact hs
  | succ n ih => intro s hs; exact ih (popOnce_ne_nil hs)

theorem popTo_ne_nil {s : List Frame} (hs : s ≠ []) (t : Nat) :
    popTo t s ≠ [] :=
  popN_ne_nil _ hs

theorem attachTop_length (p : TNode) (s : List Frame) :
    (attachTop p s).length = s.length := by
  cases s <;> rfl

theorem headChildren_attachTop (p : TNode) {s : List Frame} (hs : s ≠ []) :
    headChildren (attachTop p s) = headChildren s ++ [p] := by
  cases s with
  | nil => exact absurd rfl hs
  | cons f r => rfl

theorem tail_attachTop (p : TNode) (s : List Frame) :
    (attachTop p s).tail = s.tail := by
  cases s <;> rfl

/-- Claim C5: at a property line with measured indentation level `d`, the
parser pops the open-object stack exactly down to height `d + 1` whenever
the height exceeds `d + 1` (leaving it unchanged otherwise), and appends
the new node as the *last* child of the object then on top of the stack,
touching nothing below the top; when `d + 1` is at or beyond the current
height (an indentation jump of more than one level), nothing is popped and
nothing is rejected — the property attaches to the deepest currently-open
(shallower) object. -/
theorem claim_C5 (stack : List Frame) (d : Nat) (prop : TNode)
    (hs : stack ≠ []) :
    (popTo (d + 1) stack).length = min stack.length (d + 1)
    ∧ headChildren (reparentAttach stack d prop)
        = headChildren (popTo (d + 1) stack) ++ [prop]
    ∧ (reparentAttach stack d prop).tail = (popTo (d + 1) stack).tail
    ∧ (stack.length ≤ d + 1 →
        popTo (d + 1) stack = stack
        ∧ reparentAttach stack d prop = attachTop prop stack) := by
  refine ⟨popTo_length hs (by omega), ?_, ?_, fun hle => ?_⟩
  · exact headChildren_attachTop prop (popTo_ne_nil hs (d + 1))
  · exact tail_attachTop prop (popTo (d + 1) stack)
  · refine ⟨popTo_of_le hle, ?_⟩
    unfold reparentAttach
    rw [popTo_of_le hle]

theorem claim_C5_witness :
    (([⟨none, 0, []⟩] : List Frame) ≠ [])
    ∧ (popTo 1 ([⟨none, 0, []⟩] : List Frame)).length
        = min ([⟨none, 0, []⟩] : List Frame).length 1 :=
  ⟨by simp, (claim_C5 [⟨none, 0, []⟩] 0 (TNode.nnull none 0) (by simp)).1⟩

/-- The nested-object path of the parser (a line `k:` with nothing after
the colon): the property is handled by `reparentPush` and no diagnostic is
recorded. -/
theorem nestedObjStep (rest : Chars) (line : Nat) (stack : List Frame)
    (diags : List Nat) :
    parseLine ('k' :: ':' :: '\n' :: rest) line stack diags
      = (rest, line + 1, reparentPush stack 0 (some ['k']), diags) := by
  with_unfolding_all rfl

/-- Claim C8: the open-object stack's height never exceeds 64 — both stack
transformations performed per property line preserve `length ≤ 64` and the
parser starts from the singleton root stack — and a nested-object property
arriving when the (popped) stack already holds 64 entries is appended to
the tree but not pushed (`if (stack_size < 64)`), leaving the height at 64;
the nested-object path of `parseLine` records no diagnostic. -/
theorem claim_C8 (stack : List Frame) (d : Nat) (k : Option Chars)
    (prop : TNode) (h : stack.length ≤ 64) :
    (reparentAttach stack d prop).length ≤ 64
    ∧ (reparentPush stack d k).length ≤ 64
    ∧ ((popTo (d + 1) stack).length = 64 →
        reparentPush stack d k
          = attachTop (TNode.nobj k d []) (popTo (d + 1) stack)
        ∧ (reparentPush stack d k).length = 64)
    ∧ (∀ (rest : Chars) (line : Nat) (diags : List Nat),
        parseLine ('k' :: ':' :: '\n' :: rest) line stack diags
          = (rest, line + 1, reparentPush stack 0 (some ['k']), diags)) := by
  have hple : (popTo (d + 1) stack).length ≤ 64 :=
    le_trans (popTo_length_le (d + 1) stack) h
  refine ⟨?_, ?_, fun h64 => ?_, fun rest line diags => nestedObjStep rest line stack diags⟩
  · unfold reparentAttach
    rw [attachTop_length]
    exact hple
  · unfold reparentPush
    by_cases hlt : (popTo (d + 1) stack).length < 64
    · rw [if_pos hlt]
      simp only [List.length_cons]
      omega
    · rw [if_neg hlt, attachTop_length]
      exact hple
  · have hnlt : ¬ (popTo (d + 1) stack).length < 64 := by omega
    unfold reparentPush
    rw [if_neg hnlt, attachTop_length]
    exact ⟨rfl, h64⟩

theorem claim_C8_witness :
    (([⟨none, 0, []⟩] : List Frame).length ≤ 64)
    ∧ (reparentPush [⟨none, 0, []⟩] 0 (some ['k'])).length ≤ 64 :=
  ⟨by simp, (claim_C8 [⟨none, 0, []⟩] 0 (some ['k']) (TNode.nnull none 0)
      (by simp)).2.1⟩

/-! ## Blank/comment-only documents (claim C7) -/

/-- The lines of a document, split at every newline (the final fragment
after the last newline is a line too, so the empty document has one empty
line). -/
def splitLines : Chars → List Chars
  | [] => [[]]
  | c :: r =>
    if c = '\n' then [] :: splitLines r
    else
      match splitLines r with
      | t :: ts => (c :: t) :: ts
      | [] => [[c]]

/-- A line that the parser skips without producing a node: blank (only
spaces and tabs) or a comment (first non-blank character is '#'). -/
def blankOrCommentLine (l : Chars) : Bool :=
  match dropSpacesTabs l with
  | [] => true
  | c :: _ => c = '#'

/-- A document consisting only of comment lines and/or blank lines. -/
def blankDoc (s : Chars) : Bool :=
  (splitLines s).all blankOrCommentLine

theorem dropWhile_append_of_ne_nil {p : Char → Bool} :
    ∀ {l : Chars}, l.dropWhile p ≠ [] → ∀ t : Chars,
      (l ++ t).dropWhile p = l.dropWhile p ++ t := by
  intro l
  induction l with
  | nil => intro h _; exact absurd rfl h
  | cons c r ih =>
    intro h t
    by_cases hc : p c = true
    · simp only [List.dropWhile_cons, hc, if_true] at h ⊢
      simp only [List.cons_append, List.dropWhile_cons, hc, if_true]
      exact ih h t
    · have hc' : p c = false := by simpa using hc
      simp [List.dropWhile_cons, hc']

theorem head_dropWhile_false {p : Char → Bool} :
    ∀ {l : Chars} {c : Char} {t : Chars}, l.dropWhile p = c :: t → p c = false := by
  intro l
  induction l with
  | nil => intro c t h; simp at h
  | cons a r ih =>
    intro c t h
    by_cases ha : p a = true
    · rw [List.dropWhile_cons, if_pos ha] at h
      exact ih h
    · have ha' : p a = false := by simpa using ha
      rw [List.dropWhile_cons, if_neg (by simp [ha'])] at h
      cases h
      exact ha'

theorem mem_of_mem_dropWhile {p : Char → Bool} :
    ∀ {l : Chars} {c : Char}, c ∈ l.dropWhile p → c ∈ l := by
  intro l
  induction l with
  | nil => intro c h; simp at h
  | cons a r ih =>
    intro c h
    by_cases ha : p a = true
    · rw [List.dropWhile_cons, if_pos ha] at h
      exact List.mem_cons_of_mem a (ih h)
    · rw [List.dropWhile_cons, if_neg (by simpa using ha)] at h
      exact h

theorem splitLines_append_newline :
    ∀ {l : Chars}, (∀ c ∈ l, ¬ c = '\n') → ∀ t : Chars,
      splitLines (l ++ '\n' :: t) = l :: splitLines t := by
  intro l
  induction l with
  | nil => intro _ t; simp [splitLines]
  | cons c r ih =>
    intro h t
    have hc : ¬ c = '\n' := h c (by simp)
    rw [List.cons_append]
    simp only [splitLines]
    rw [if_neg hc, ih (fun x hx => h x (by simp [hx])) t]

theorem splitLines_no_newline :
    ∀ {l : Chars}, (∀ c ∈ l, ¬ c = '\n') → splitLines l = [l] := by
  intro l
  induction l with
  | nil => intro _; rfl
  | cons c r ih =>
    intro h
    have hc : ¬ c = '\n' := h c (by simp)
    unfold splitLines
    rw [if_neg hc, ih (fun x hx => h x (by simp [hx]))]

theorem parseLoop_nil (fuel line : Nat) (stack : List Frame) (diags : List Nat) :
    parseLoop fuel [] line stack diags = (finalize stack, diags) := by
  cases fuel <;> rfl

/-- On a document whose lines are all blank or comments, the main loop
only ever takes the skip branch: the stack and diagnostics are untouched
and the loop ends by materialising the untouched stack. -/
theorem parseLoop_blank :
    ∀ (fuel : Nat) (input : Chars) (line : Nat) (stack : List Frame)
      (diags : List Nat), blankDoc input = true →
      parseLoop fuel input line stack diags = (finalize stack, diags) := by
  intro fuel
  induction fuel with
  | zero => intro input line stack diags _; rfl
  | succ fuel ih =>
    intro input line stack diags hblank
    cases hin : input with
    | nil => rfl
    | cons c0 r0 =>
      subst hin
      set L := (c0 :: r0).takeWhile (fun c => !(c = '\n')) with hL
      set R := (c0 :: r0).dropWhile (fun c => !(c = '\n')) with hR
      have hsplit : c0 :: r0 = L ++ R := by
        rw [hL, hR, List.takeWhile_append_dropWhile]
      have hLnl : ∀ c ∈ L, ¬ c = '\n' := by
        intro c hc
        have := List.mem_takeWhile_imp (hL ▸ hc)
        simpa using this
      have hRshape : R = [] ∨ ∃ t, R = '\n' :: t := by
        cases hr : R with
        | nil => exact Or.inl rfl
        | cons c t =>
          right
          have hdw : (c0 :: r0).dropWhile (fun c => !(c = '\n')) = c :: t := by
            rw [← hR]; exact hr
          have hcnl : c = '\n' := by simpa using head_dropWhile_false hdw
          subst hcnl
          exact ⟨t, rfl⟩
      -- the first line is blank or a comment, and the remaining document
      -- is blank again
      have hfirst : blankOrCommentLine L = true ∧
          (∀ t, R = '\n' :: t → blankDoc t = true) := by
        rcases hRshape with hr | ⟨t, hr⟩
        · have : splitLines (c0 :: r0) = [L] := by
            rw [hsplit, hr, List.append_nil]
            exact splitLines_no_newline hLnl
          unfold blankDoc at hblank
          rw [this] at hblank
          simp only [List.all_cons, List.all_nil, Bool.and_true] at hblank
          exact ⟨hblank, fun t ht => by rw [hr] at ht; cases ht⟩
        · have : splitLines (c0 :: r0) = L :: splitLines t := by
            rw [hsplit, hr]
            exact splitLines_append_newline hLnl t
          unfold blankDoc at hblank
          rw [this] at hblank
          simp only [List.all_cons, Bool.and_eq_true] at hblank
          refine ⟨hblank.1, fun t2 ht2 => ?_⟩
          rw [hr] at ht2
          cases ht2
          exact hblank.2
      -- compute the whitespace-skipped cursor
      have hWsplit : dropSpacesTabs (c0 :: r0) = dropSpacesTabs L ++ R := by
        rw [hsplit]
        unfold dropSpacesTabs
        rcases hW2 : L.dropWhile (fun c => c = ' ' || c = '\t') with _ | ⟨w, ws⟩
        · have hall : ∀ c ∈ L, (fun c => c = ' ' || c = '\t') c = true :=
            List.dropWhile_eq_nil_iff.mp hW2
          rw [dropWhile_append_of_all hall R, List.nil_append]
          rcases hRshape with hr | ⟨t, hr⟩
          · rw [hr]; rfl
          · rw [hr]
            exact dropWhile_cons_of_neg t (by decide)
        · rw [dropWhile_append_of_ne_nil (by rw [hW2]; simp) R, hW2]
      rcases hW : dropSpacesTabs L with _ | ⟨w, ws⟩
      · -- fully blank leading line
        rcases hRshape with hr | ⟨t, hr⟩
        · have hp1 : dropSpacesTabs (c0 :: r0) = [] := by
            rw [hWsplit, hW, hr]; rfl
          have hline : parseLine (c0 :: r0) line stack diags
              = ([], line, stack, diags) := by
            unfold parseLine
            rw [hp1]
            rfl
          simp only [parseLoop, hline]
          exact parseLoop_nil fuel line stack diags
        · have hp1 : dropSpacesTabs (c0 :: r0) = '\n' :: t := by
            rw [hWsplit, hW, hr]; rfl
          have hsk : skipLine ('\n' :: t) line = (t, line + 1) := by
            unfold skipLine
            rw [dropWhile_cons_of_neg (p := fun c => !(c = '\n')) (c := '\n') t
              (by simp)]
            rfl
          have hline : parseLine (c0 :: r0) line stack diags
              = (t, line + 1, stack, diags) := by
            unfold parseLine
            rw [hp1, if_pos (show ('\n' :: t : Chars).head? = some '#'
              ∨ ('\n' :: t : Chars).head? = some '\n' ∨ ('\n' :: t : Chars) = []
              from Or.inr (Or.inl rfl)), hsk]
          simp only [parseLoop, hline]
          exact ih t (line + 1) stack diags (hfirst.2 t hr)
      · -- comment line: first non-blank char is '#'
        have hw : w = '#' := by
          unfold blankOrCommentLine at hfirst
          rw [hW] at hfirst
          simpa using hfirst.1
        subst hw
        have hwsnl : ∀ c ∈ ('#' :: ws : Chars), (!(c = '\n')) = true := by
          intro c hc
          have hmem : c ∈ L := by
            have : c ∈ L.dropWhile (fun c => c = ' ' || c = '\t') := by
              rw [show L.dropWhile (fun c => c = ' ' || c = '\t')
                = '#' :: ws from hW]
              exact hc
            exact mem_of_mem_dropWhile this
          simpa using hLnl c hmem
        rcases hRshape with hr | ⟨t, hr⟩
        · have hp1 : dropSpacesTabs (c0 :: r0) = '#' :: ws := by
            rw [hWsplit, hW, hr, List.append_nil]
          have hsk : skipLine ('#' :: ws) line = ([], line) := by
            unfold skipLine
            rw [List.dropWhile_eq_nil_iff.mpr hwsnl]
            rfl
          have hline : parseLine (c0 :: r0) line stack diags
              = ([], line, stack, diags) := by
            unfold parseLine
            rw [hp1, if_pos (show ('#' :: ws : Chars).head? = some '#'
              ∨ ('#' :: ws : Chars).head? = some '\n' ∨ ('#' :: ws : Chars) = []
              from Or.inl rfl), hsk]
          simp only [parseLoop, hline]
          exact parseLoop_nil fuel line stack diags
        · have hwsnl2 : ∀ c ∈ ws, (!(c = '\n')) = true := fun c hc =>
            hwsnl c (List.mem_cons_of_mem '#' hc)
          have hp1 : dropSpacesTabs (c0 :: r0) = '#' :: (ws ++ '\n' :: t) := by
            rw [hWsplit, hW, hr]; rfl
          have hsk : skipLine ('#' :: (ws ++ '\n' :: t)) line = (t, line + 1) := by
            unfold skipLine
            rw [dropWhile_cons_of_pos (p := fun c => !(c = '\n')) (c := '#')
                (ws ++ '\n' :: t) (by simp),
              dropWhile_append_of_all hwsnl2 ('\n' :: t),
              dropWhile_cons_of_neg (p := fun c => !(c = '\n')) (c := '\n') t
                (by simp)]
            rfl
          have hline : parseLine (c0 :: r0) line stack diags
              = (t, line + 1, stack, diags) := by
            unfold parseLine
            rw [hp1, if_pos (show ('#' :: (ws ++ '\n' :: t) : Chars).head? = some '#'
              ∨ ('#' :: (ws ++ '\n' :: t) : Chars).head? = some '\n'
              ∨ ('#' :: (ws ++ '\n' :: t) : Chars) = []
              from Or.inl rfl), hsk]
          simp only [parseLoop, hline]
          exact ih t (line + 1) stack diags (hfirst.2 t hr)

theorem finalize_isObj (s : List Frame) :
    ∃ k i cs, finalize s = TNode.nobj k i cs := by
  unfold finalize
  split
  · exact ⟨_, _, _, rfl⟩
  · exact ⟨none, 0, [], rfl⟩

theorem parseLoop_isObj :
    ∀ (fuel : Nat) (input : Chars) (line : Nat) (stack : List Frame)
      (diags : List Nat),
      ∃ k i cs, (parseLoop fuel input line stack diags).1 = TNode.nobj k i cs := by
  intro fuel
  induction fuel with
  | zero => intro input line stack diags; exact finalize_isObj stack
  | succ fuel ih =>
    intro input line stack diags
    cases input with
    | nil => exact finalize_isObj stack
    | cons c r =>
      rcases hplr : parseLine (c :: r) line stack diags with ⟨p2, l2, st2, dg2⟩
      simp only [parseLoop, hplr]
      exact ih p2 l2 st2 dg2

/-- Claim C7: a document of only comment and/or blank lines (including the
empty document) parses to an Object root with no children and no
diagnostics; the root returned by `parse` is always of kind Object, and so
is any root returned by `TOONc_parseFile` (which returns nothing at all,
rather than a root, for an empty stream). -/
theorem claim_C7 :
    (∀ s : Chars, blankDoc s = true → parse s = (TNode.nobj none 0 [], []))
    ∧ parse [] = (TNode.nobj none 0 [], [])
    ∧ (∀ s : Chars, ∃ k i cs, (parse s).1 = TNode.nobj k i cs)
    ∧ (∀ (s : Chars) (r : TNode), TOONc_parseFile s = some r →
        ∃ k i cs, r = TNode.nobj k i cs) := by
  refine ⟨fun s hs => ?_, rfl, fun s => ?_, fun s r hr => ?_⟩
  · unfold parse
    rw [parseLoop_blank _ s 1 [⟨none, 0, []⟩] [] hs]
    rfl
  · exact parseLoop_isObj _ s 1 [⟨none, 0, []⟩] []
  · unfold TOONc_parseFile at hr
    by_cases hlen : s.length = 0
    · rw [if_pos hlen] at hr; cases hr
    · rw [if_neg hlen] at hr
      cases hr
      exact parseLoop_isObj _ s 1 [⟨none, 0, []⟩] []

theorem claim_C7_witness :
    (blankDoc ("# note\n\n   \n".toList) = true
      ∧ parse ("# note\n\n   \n".toList) = (TNode.nobj none 0 [], []))
    ∧ TOONc_parseFile ("x: 1\n".toList) = some (parse ("x: 1\n".toList)).1
    ∧ (∃ k i cs, (parse ("x: 1\n".toList)).1 = TNode.nobj k i cs) :=
  ⟨⟨by decide, claim_C7.1 ("# note\n\n   \n".toList) (by decide)⟩,
   rfl,
   claim_C7.2.2.2 ("x: 1\n".toList) (parse ("x: 1\n".toList)).1 rfl⟩

/-! ## The numeric-literal grammar of the spec (claim C6) -/

/-- One or more digits. -/
def Digits1 (l : Chars) : Prop := l ≠ [] ∧ ∀ c ∈ l, c.isDigit = true

/-- Optional leading sign. -/
def SignOpt (l : Chars) : Prop := l = [] ∨ l = ['+'] ∨ l = ['-']

/-- Optional '.' followed by one or more digits. -/
def FracOpt (l : Chars) : Prop :=
  l = [] ∨ ∃ fd, Digits1 fd ∧ l = '.' :: fd

/-- Optional 'e'/'E' with optional sign and one or more digits. -/
def ExpOpt (l : Chars) : Prop :=
  l = [] ∨ ∃ e sg ds, (e = 'e' ∨ e = 'E') ∧ SignOpt sg ∧ Digits1 ds
    ∧ l = e :: (sg ++ ds)

/-- The spec's numeric grammar, consuming the whole span: optional sign,
one or more digits, optional fraction, optional exponent. -/
def NumGrammar (s : Chars) : Prop :=
  ∃ sg ds fr ex, SignOpt sg ∧ Digits1 ds ∧ FracOpt fr ∧ ExpOpt ex
    ∧ s = sg ++ ds ++ fr ++ ex

theorem takeWhile_cons_of_pos {p : Char → Bool} {c : Char} (t : Chars)
    (h : p c = true) : (c :: t).takeWhile p = c :: t.takeWhile p := by
  simp [List.takeWhile, h]

theorem digit_not_sign {c : Char} (h : c.isDigit = true) :
    (c = '+' || c = '-') = false := by
  cases hp : decide (c = '+') with
  | true =>
    have : c = '+' := of_decide_eq_true hp
    subst this
    exact absurd h (by decide)
  | false =>
    cases hm : decide (c = '-') with
    | true =>
      have : c = '-' := of_decide_eq_true hm
      subst this
      exact absurd h (by decide)
    | false => simp [hp, hm]

theorem digit_not_minus_plus {c : Char} (h : c.isDigit = true) :
    (c = '-' || c = '+') = false := by
  have := digit_not_sign h
  simp only [Bool.or_eq_false_iff] at this ⊢
  exact ⟨this.2, this.1⟩

theorem exp_head_not_digit {e : Char} (h : e = 'e' ∨ e = 'E') :
    e.isDigit = false := by
  rcases h with h | h <;> subst h <;> decide

/-- The exponent phase accepts every span of the exponent grammar
(including the empty remainder). -/
theorem expPhase_isSome_of_expOpt (b : Bool) :
    ∀ {t : Chars}, ExpOpt t → (expPhase b t).isSome = true := by
  intro t h
  rcases h with h | ⟨e, sg, ds, he, hsg, hds, ht⟩
  · subst h; rfl
  · subst ht
    obtain ⟨d0, ds', rfl⟩ : ∃ d0 ds', ds = d0 :: ds' := by
      cases ds with
      | nil => exact absurd rfl hds.1
      | cons d0 ds' => exact ⟨d0, ds', rfl⟩
    have hd0 : d0.isDigit = true := hds.2 d0 (by simp)
    have hdrop : (d0 :: ds').dropWhile Char.isDigit = [] :=
      List.dropWhile_eq_nil_iff.mpr hds.2
    have hcond : (e = 'e' || e = 'E') = true := by
      rcases he with h | h <;> simp [h]
    have hs2 : expSignStrip (sg ++ d0 :: ds') = d0 :: ds' := by
      rcases hsg with h | h | h <;> subst h
      · simp [expSignStrip, digit_not_sign hd0]
      · simp [expSignStrip]
      · simp [expSignStrip]
    simp [expPhase, hcond, hs2, expTail, hd0, hdrop]

/-- The exponent phase only accepts spans of the exponent grammar. -/
theorem expOpt_of_expPhase_isSome (b : Bool) :
    ∀ {t : Chars}, (expPhase b t).isSome = true → ExpOpt t := by
  intro t h
  cases t with
  | nil => exact Or.inl rfl
  | cons c s1 =>
    simp only [expPhase] at h
    by_cases hc : (c = 'e' || c = 'E') = true
    · have he : c = 'e' ∨ c = 'E' := by
        rcases Bool.or_eq_true_iff.mp hc with h1 | h1
        · exact Or.inl (of_decide_eq_true h1)
        · exact Or.inr (of_decide_eq_true h1)
      rw [if_pos hc] at h
      cases hs2 : expSignStrip s1 with
      | nil => rw [hs2] at h; simp [expTail] at h
      | cons d r =>
        rw [hs2] at h
        simp only [expTail] at h
        by_cases hd : d.isDigit = true
        · rw [if_pos hd] at h
          by_cases hdrop : (d :: r).dropWhile Char.isDigit = []
          · have hdig : Digits1 (d :: r) :=
              ⟨by simp, List.dropWhile_eq_nil_iff.mp hdrop⟩
            cases hs1 : s1 with
            | nil =>
              rw [hs1] at hs2
              simp [expSignStrip] at hs2
            | cons a s1' =>
              rw [hs1] at hs2
              by_cases ha : (a = '+' || a = '-') = true
              · have hstrip : expSignStrip (a :: s1') = s1' := by
                  simp [expSignStrip, ha]
                rw [hstrip] at hs2
                have hsga : SignOpt [a] := by
                  rcases Bool.or_eq_true_iff.mp ha with h1 | h1
                  · exact Or.inr (Or.inl (by rw [of_decide_eq_true h1]))
                  · exact Or.inr (Or.inr (by rw [of_decide_eq_true h1]))
                exact Or.inr ⟨c, [a], d :: r, he, hsga, hdig, by rw [hs2]; rfl⟩
              · have hstrip : expSignStrip (a :: s1') = a :: s1' := by
                  have ha' : (a = '+' || a = '-') = false := by
                    simpa using ha
                  simp [expSignStrip, ha']
                rw [hstrip] at hs2
                exact Or.inr ⟨c, [], d :: r, he, Or.inl rfl, hdig,
                  by rw [List.nil_append, ← hs2]⟩
          · rw [if_neg hdrop] at h
            simp at h
        · rw [if_neg hd] at h
          simp at h
    · rw [if_neg hc] at h
      simp at h

/-- The fraction-then-exponent phases accept every `FracOpt`-`ExpOpt`
concatenation. -/
theorem fracPhase_isSome_of_grammar :
    ∀ {fr ex : Chars}, FracOpt fr → ExpOpt ex →
      (fracPhase (fr ++ ex)).isSome = true := by
  intro fr ex hfr hex
  rcases hfr with h | ⟨fd, hfd, hfr2⟩
  · subst h
    rw [List.nil_append]
    cases ex with
    | nil => rfl
    | cons e rest =>
      have hene : ¬ e = '.' := by
        rcases hex with h | ⟨e', sg, ds, he', _, _, ht⟩
        · cases h
        · have hee : e' = e := by
            injection ht with h1 _
            exact h1.symm
          rcases he' with h2 | h2 <;> rw [← hee, h2] <;> decide
      simp only [fracPhase]
      rw [if_neg hene]
      exact expPhase_isSome_of_expOpt false hex
  · subst hfr2
    obtain ⟨f0, fd', rfl⟩ : ∃ f0 fd', fd = f0 :: fd' := by
      cases fd with
      | nil => exact absurd rfl hfd.1
      | cons f0 fd' => exact ⟨f0, fd', rfl⟩
    have hf0 : f0.isDigit = true := hfd.2 f0 (by simp)
    have hdropfd : ((f0 :: fd') ++ ex).dropWhile Char.isDigit = ex := by
      rw [dropWhile_append_of_all hfd.2 ex]
      cases ex with
      | nil => rfl
      | cons e rest =>
        rcases hex with h | ⟨e', sg, ds, he', _, _, ht⟩
        · cases h
        · have hee : e' = e := by
            injection ht with h1 _
            exact h1.symm
          refine dropWhile_cons_of_neg rest ?_
          rw [← hee]
          exact exp_head_not_digit he'
      -- the head of a nonempty exponent part is 'e'/'E', not a digit
    rw [show (('.' :: f0 :: fd') ++ ex : Chars) = '.' :: ((f0 :: fd') ++ ex)
      from rfl]
    simp only [fracPhase]
    rw [if_pos trivial]
    rw [show ((f0 :: fd') ++ ex : Chars) = f0 :: (fd' ++ ex) from rfl] at hdropfd ⊢
    simp only [fracTail]
    rw [if_pos hf0, hdropfd]
    exact expPhase_isSome_of_expOpt true hex

/-- The fraction-then-exponent phases only accept such concatenations. -/
theorem grammar_of_fracPhase_isSome :
    ∀ {t : Chars}, (fracPhase t).isSome = true →
      ∃ fr ex, FracOpt fr ∧ ExpOpt ex ∧ t = fr ++ ex := by
  intro t h
  cases t with
  | nil => exact ⟨[], [], Or.inl rfl, Or.inl rfl, rfl⟩
  | cons c s3 =>
    simp only [fracPhase] at h
    by_cases hc : c = '.'
    · subst hc
      rw [if_pos rfl] at h
      cases s3 with
      | nil => simp [fracTail] at h
      | cons d r =>
        simp only [fracTail] at h
        by_cases hd : d.isDigit = true
        · rw [if_pos hd] at h
          have hex : ExpOpt ((d :: r).dropWhile Char.isDigit) :=
            expOpt_of_expPhase_isSome true h
          refine ⟨'.' :: (d :: r).takeWhile Char.isDigit,
            (d :: r).dropWhile Char.isDigit, ?_, hex, ?_⟩
          · refine Or.inr ⟨(d :: r).takeWhile Char.isDigit, ⟨?_, ?_⟩, rfl⟩
            · rw [takeWhile_cons_of_pos r hd]
              simp
            · intro x hx
              exact List.mem_takeWhile_imp hx
          · rw [List.cons_append, List.takeWhile_append_dropWhile]
        · rw [if_neg hd] at h
          simp at h
    · rw [if_neg hc] at h
      exact ⟨[], c :: s3, Or.inl rfl, expOpt_of_expPhase_isSome false h, rfl⟩

/-- `isNumber` accepts exactly the spans of the spec's numeric grammar. -/
theorem isNumber_iff_grammar (s : Chars) :
    (isNumber s).isSome = true ↔ NumGrammar s := by
  constructor
  · intro h
    cases s with
    | nil => simp [isNumber] at h
    | cons c rest =>
      simp only [isNumber] at h
      by_cases hc : (c = '-' || c = '+') = true
      · rw [if_pos hc] at h
        cases rest with
        | nil => simp [intPart] at h
        | cons d r =>
          simp only [intPart] at h
          by_cases hd : d.isDigit = true
          · rw [if_pos hd] at h
            obtain ⟨fr, ex, hfr, hex, hsplit⟩ := grammar_of_fracPhase_isSome h
            refine ⟨[c], (d :: r).takeWhile Char.isDigit, fr, ex, ?_,
              ⟨by rw [takeWhile_cons_of_pos r hd]; simp,
               fun x hx => List.mem_takeWhile_imp hx⟩, hfr, hex, ?_⟩
            · rcases Bool.or_eq_true_iff.mp hc with h1 | h1
              · exact Or.inr (Or.inr (by rw [of_decide_eq_true h1]))
              · exact Or.inr (Or.inl (by rw [of_decide_eq_true h1]))
            · rw [show (([c] ++ (d :: r).takeWhile Char.isDigit ++ fr ++ ex : Chars))
                = c :: ((d :: r).takeWhile Char.isDigit ++ (fr ++ ex)) by simp]
              rw [← hsplit, List.takeWhile_append_dropWhile]
          · rw [if_neg hd] at h
            simp at h
      · rw [if_neg hc] at h
        simp only [intPart] at h
        by_cases hcd : c.isDigit = true
        · rw [if_pos hcd] at h
          obtain ⟨fr, ex, hfr, hex, hsplit⟩ := grammar_of_fracPhase_isSome h
          refine ⟨[], (c :: rest).takeWhile Char.isDigit, fr, ex, Or.inl rfl,
            ⟨by rw [takeWhile_cons_of_pos rest hcd]; simp,
             fun x hx => List.mem_takeWhile_imp hx⟩, hfr, hex, ?_⟩
          rw [show (([] : Chars) ++ (c :: rest).takeWhile Char.isDigit ++ fr ++ ex)
            = (c :: rest).takeWhile Char.isDigit ++ (fr ++ ex) by simp]
          rw [← hsplit, List.takeWhile_append_dropWhile]
        · rw [if_neg hcd] at h
          simp at h
  · rintro ⟨sg, ds, fr, ex, hsg, hds, hfr, hex, rfl⟩
    obtain ⟨d0, ds', rfl⟩ : ∃ d0 ds', ds = d0 :: ds' := by
      cases ds with
      | nil => exact absurd rfl hds.1
      | cons d0 ds' => exact ⟨d0, ds', rfl⟩
    have hd0 : d0.isDigit = true := hds.2 d0 (by simp)
    have hdropBody : ((d0 :: ds') ++ fr ++ ex).dropWhile Char.isDigit
        = fr ++ ex := by
      rw [show ((d0 :: ds') ++ fr ++ ex : Chars)
        = (d0 :: ds') ++ (fr ++ ex) by simp]
      rw [dropWhile_append_of_all hds.2 (fr ++ ex)]
      rcases hfr with h | ⟨fd, _, hfr2⟩
      · subst h
        rw [List.nil_append]
        rcases hex with h | ⟨e, sg2, ds2, he, _, _, ht⟩
        · subst h; rfl
        · subst ht
          exact dropWhile_cons_of_neg _ (exp_head_not_digit he)
      · subst hfr2
        rw [List.cons_append]
        exact dropWhile_cons_of_neg _ (by decide)
    have hfrac : (fracPhase (fr ++ ex)).isSome = true :=
      fracPhase_isSome_of_grammar hfr hex
    rcases hsg with h | h | h
    · subst h
      rw [List.nil_append]
      rw [show ((d0 :: ds') ++ fr ++ ex : Chars)
        = d0 :: (ds' ++ fr ++ ex) by simp]
      simp only [isNumber]
      rw [if_neg (by rw [digit_not_minus_plus hd0]; simp)]
      simp only [intPart]
      rw [if_pos hd0]
      rw [show (d0 :: (ds' ++ fr ++ ex) : Chars)
        = (d0 :: ds') ++ fr ++ ex by simp, hdropBody]
      exact hfrac
    · subst h
      rw [show (['+'] ++ (d0 :: ds') ++ fr ++ ex : Chars)
        = '+' :: ((d0 :: ds') ++ fr ++ ex) by simp]
      simp only [isNumber]
      rw [if_pos (by simp)]
      rw [show ((d0 :: ds') ++ fr ++ ex : Chars)
        = d0 :: (ds' ++ fr ++ ex) by simp]
      simp only [intPart]
      rw [if_pos hd0]
      rw [show (d0 :: (ds' ++ fr ++ ex) : Chars)
        = (d0 :: ds') ++ fr ++ ex by simp, hdropBody]
      exact hfrac
    · subst h
      rw [show (['-'] ++ (d0 :: ds') ++ fr ++ ex : Chars)
        = '-' :: ((d0 :: ds') ++ fr ++ ex) by simp]
      simp only [isNumber]
      rw [if_pos (by simp)]
      rw [show ((d0 :: ds') ++ fr ++ ex : Chars)
        = d0 :: (ds' ++ fr ++ ex) by simp]
      simp only [intPart]
      rw [if_pos hd0]
      rw [show (d0 :: (ds' ++ fr ++ ex) : Chars)
        = (d0 :: ds') ++ fr ++ ex by simp, hdropBody]
      exact hfrac

/-- Claim C6: parsing `key: v` and querying `key` yields the expected node
for every scalar mapping of the spec ("123"→Int 123, "-3.14"→Double,
"1.5e10"→Double, "true"/"false"→Bool, "null"→Null, quoted strings with the
quotes stripped and the contents verbatim, bare words→String); a span is
classified as numeric exactly when the whole span matches the grammar
(optional sign, digits, optional fraction, optional exponent, nothing
left over), and a non-matching span falls back to String. -/
theorem claim_C6 :
    TOONc_get (some (parse ("key: 123\n".toList)).1) (some ("key".toList))
      = some (TNode.nint (some ("key".toList)) 0 123)
    ∧ TOONc_get (some (parse ("key: -3.14\n".toList)).1) (some ("key".toList))
      = some (TNode.ndouble (some ("key".toList)) 0 ("-3.14".toList))
    ∧ TOONc_get (some (parse ("key: 1.5e10\n".toList)).1) (some ("key".toList))
      = some (TNode.ndouble (some ("key".toList)) 0 ("1.5e10".toList))
    ∧ TOONc_get (some (parse ("key: true\n".toList)).1) (some ("key".toList))
      = some (TNode.nbool (some ("key".toList)) 0 true)
    ∧ TOONc_get (some (parse ("key: false\n".toList)).1) (some ("key".toList))
      = some (TNode.nbool (some ("key".toList)) 0 false)
    ∧ TOONc_get (some (parse ("key: null\n".toList)).1) (some ("key".toList))
      = some (TNode.nnull (some ("key".toList)) 0)
    ∧ TOONc_get (some (parse ("key: \"x\"\n".toList)).1) (some ("key".toList))
      = some (TNode.nstr (some ("key".toList)) 0 ("x".toList))
    ∧ TOONc_get (some (parse ("key: hello\n".toList)).1) (some ("key".toList))
      = some (TNode.nstr (some ("key".toList)) 0 ("hello".toList))
    ∧ TOONc_get (some (parse ("key: 12ab\n".toList)).1) (some ("key".toList))
      = some (TNode.nstr (some ("key".toList)) 0 ("12ab".toList))
    ∧ (∀ s : Chars, (isNumber s).isSome = true ↔ NumGrammar s) :=
  ⟨rfl, rfl, rfl, rfl, rfl, rfl, rfl, rfl, rfl, isNumber_iff_grammar⟩

end TOONc
